import Mathlib

/-!
# Shallow embedding of the job-portal application (src/app.py)

The application is a Flask/SQLAlchemy job board.  This file embeds its data
model (`User`, `Job`, `Application`), its persistent state (`DB`), and the
route handlers that the specification's claims are about, as pure Lean
functions over explicit state.  Each handler takes the database (and, where
the route is authenticated, the resolved `current_user`) and returns a
result value paired with the successor database.

Modelling conventions, each noted again at the definition it concerns:
* strings are `List Char` (`Str`); `str` injects Lean string literals;
* SQLAlchemy `ilike` is embedded as a genuine SQL LIKE-pattern matcher
  (`likeMatch`), wildcards `%` and `_` included, since the source passes
  user input into the pattern;
* `db.session.delete(parent)` follows SQLAlchemy semantics for the
  relationships declared in the source: none of them declares a delete
  cascade, so deleting a parent row detaches its children by nulling their
  foreign keys rather than deleting them;
* autoincrement primary keys are modelled by `nextId`; `datetime.utcnow`
  timestamps are passed in as a `now : Nat` argument;
* library helpers (`generate_password_hash`, `secure_filename`) are
  embedded by small functions that keep the structure relevant to the
  claims (a method-prefixed hash string; an unsafe-character filter).
-/

namespace JobPortal

/-- Strings of the embedded program, as explicit character lists. -/
abbrev Str := List Char

/-- Inject a Lean string literal into the embedding's string type. -/
def str (s : String) : Str := s.data

/-- Lower-case a string character-wise (models Python `str.lower` /
SQL case-insensitive comparison on ASCII data). -/
def lowerStr (s : Str) : Str := s.map Char.toLower

/-- `segAt q s`: `q` occurs at the start of `s` (prefix test). -/
def segAt : Str → Str → Bool
  | [], _ => true
  | _ :: _, [] => false
  | a :: q, b :: s => a == b && segAt q s

/-- `hasSeg q s`: `q` occurs contiguously somewhere inside `s`. -/
def hasSeg (q : Str) : Str → Bool
  | [] => segAt q []
  | c :: s => segAt q (c :: s) || hasSeg q s

/-- The specification's "case-insensitive substring" relation: `q`,
lower-cased, occurs contiguously inside the lower-casing of `s`. -/
def SubCI (q s : Str) : Prop :=
  ∃ l r, lowerStr s = l ++ lowerStr q ++ r

/-- Boolean decision procedure for `SubCI`. -/
def subCIb (q s : Str) : Bool := hasSeg (lowerStr q) (lowerStr s)

/-- Apply the test `f` to every suffix of the string (the string itself
included, the empty suffix last) and succeed if any suffix passes. -/
def tryTails (f : Str → Bool) : Str → Bool
  | [] => f []
  | c :: s => f (c :: s) || tryTails f s

/-- SQL LIKE-pattern matching, case-insensitive, as produced by
SQLAlchemy's `ilike`: `%` matches any run of characters, `_` matches any
single character, any other pattern character matches itself up to case.
First argument is the pattern, second the candidate string. -/
def likeMatch : Str → Str → Bool
  | [], s => s.isEmpty
  | p :: ps, s =>
    if p = '%' then
      tryTails (likeMatch ps) s
    else
      match s with
      | [] => false
      | c :: s' => (p = '_' || p.toLower = c.toLower) && likeMatch ps s'

/-- `Column.ilike(f"%{q}%")` of the source: the LIKE pattern is the user
string wrapped in `%` wildcards. -/
def ilike (q s : Str) : Bool := likeMatch ('%' :: (q ++ ['%'])) s

/-- A filter string free of SQL LIKE metacharacters. -/
def noWildcards (q : Str) : Prop := '%' ∉ q ∧ '_' ∉ q

instance noWildcardsDecidable (q : Str) : Decidable (noWildcards q) :=
  inferInstanceAs (Decidable ('%' ∉ q ∧ '_' ∉ q))

/-- `User` model (src/app.py): id, username, email, password hash, role.
The `role` column is an unchecked string with no closed enum. -/
structure User where
  id : Nat
  username : Str
  email : Str
  password_hash : Str
  role : Str
  deriving Repr, DecidableEq

/-- `Job` model (src/app.py): the `employer_id` foreign key is nullable
(no `nullable=False` in the source), hence `Option Nat`. -/
structure Job where
  id : Nat
  title : Str
  description : Str
  salary : Str
  location : Str
  company : Str
  timestamp : Nat
  employer_id : Option Nat
  deriving Repr, DecidableEq

/-- `Application` model (src/app.py): both foreign keys are nullable. -/
structure Application where
  id : Nat
  applicant_name : Str
  applicant_email : Str
  resume_filename : Str
  timestamp : Nat
  job_id : Option Nat
  job_seeker_id : Option Nat
  deriving Repr, DecidableEq

/-- The persistent state: the three tables plus the resume upload folder
(the list of stored filenames). Table rows are kept in insertion order,
which is what unordered SQLite queries return for this schema. -/
structure DB where
  users : List User
  jobs : List Job
  apps : List Application
  files : List Str
  deriving Repr, DecidableEq

/-- Autoincrement primary key: one more than the largest id in use. -/
def nextId (ids : List Nat) : Nat := ids.foldr max 0 + 1

/-- `Job.query.get(job_id)` — primary-key lookup. -/
def findJob (db : DB) (jid : Nat) : Option Job :=
  db.jobs.find? (fun j => j.id == jid)

/-- `User.query.get(user_id)` — primary-key lookup. -/
def findUser (db : DB) (uid : Nat) : Option User :=
  db.users.find? (fun u => u.id == uid)

/-- `werkzeug.security.generate_password_hash` (library code): returns a
method-and-salt-prefixed digest string, never the plaintext itself.  The
embedding keeps the structure that matters to the claims: the stored value
is a prefixed transform of the password, not the password. -/
def generate_password_hash (password : Str) : Str :=
  str "pbkdf2:sha256$" ++ password

/-- `werkzeug.utils.secure_filename` (library code): strips characters
outside the safe set `[A-Za-z0-9_.-]`, removing path separators and other
unsafe characters. -/
def secure_filename (s : Str) : Str :=
  s.filter (fun c => c.isAlphanum || c = '_' || c = '.' || c = '-')

/-- `app.config['ALLOWED_EXTENSIONS']` = `{'pdf', 'doc', 'docx'}`. -/
def ALLOWED_EXTENSIONS : List Str := [str "pdf", str "doc", str "docx"]

/-- `filename.rsplit('.', 1)[1]`: the portion after the last `'.'`
(meaningful only when a dot is present, which `allowed_file` checks
first). -/
def extAfterLastDot (s : Str) : Str :=
  ((s.reverse.takeWhile (fun c => c ≠ '.')).reverse)

/-- `allowed_file` (src/app.py, lines 40-42): the filename contains a dot
and the lower-cased portion after the last dot is an allowed extension. -/
def allowed_file (filename : Str) : Bool :=
  filename.contains '.' &&
    ALLOWED_EXTENSIONS.contains (lowerStr (extAfterLastDot filename))

/-- Flash-message categories used by the source (`flash(msg, category)`). -/
inductive Flash
  | success
  | info
  | warning
  | danger
  deriving Repr, DecidableEq

/-- Outcome of the `register` POST handler. -/
inductive RegisterResult
  | duplicateEmail
  | registered
  deriving Repr, DecidableEq

/-- `register` (src/app.py, lines 99-122), POST branch for an anonymous
caller: if a user with the given email exists, flash a warning and create
nothing; otherwise create a new `User` with the caller-supplied username,
email and role and a hashed password.  The role string is stored as-is:
the source validates it against no enum. -/
def register (db : DB) (username email password role : Str) :
    RegisterResult × DB :=
  if (db.users.find? (fun u => u.email == email)).isSome then
    (.duplicateEmail, db)
  else
    let new_user : User :=
      { id := nextId (db.users.map (·.id))
        username := username
        email := email
        password_hash := generate_password_hash password
        role := role }
    (.registered, { db with users := db.users ++ [new_user] })

/-- Fields of the job form (title, description, salary, location,
company). -/
structure JobFields where
  title : Str
  description : Str
  salary : Str
  location : Str
  company : Str
  deriving Repr, DecidableEq

/-- Outcome of the `job_form` POST handler. -/
inductive PostJobResult
  | forbidden
  | posted
  deriving Repr, DecidableEq

/-- `job_form` (src/app.py, lines 181-208), POST branch: requires
`current_user.role in ["employer", "admin"]`; otherwise flashes a danger
notice and changes nothing.  On success a new `Job` owned by the caller is
persisted with the current timestamp. -/
def job_form (db : DB) (caller : User) (f : JobFields) (now : Nat) :
    PostJobResult × DB :=
  if ¬ (caller.role = str "employer" ∨ caller.role = str "admin") then
    (.forbidden, db)
  else
    let new_job : Job :=
      { id := nextId (db.jobs.map (·.id))
        title := f.title
        description := f.description
        salary := f.salary
        location := f.location
        company := f.company
        timestamp := now
        employer_id := some caller.id }
    (.posted, { db with jobs := db.jobs ++ [new_job] })

/-- Outcome of the `edit_job` POST handler. -/
inductive EditResult
  | notFound
  | forbidden
  | updated
  deriving Repr, DecidableEq

/-- Overwrite exactly the five form fields of a job; `id`, `timestamp`
and `employer_id` are not touched by the handler. -/
def overwriteFields (j : Job) (f : JobFields) : Job :=
  { j with
    title := f.title
    description := f.description
    salary := f.salary
    location := f.location
    company := f.company }

/-- `edit_job` (src/app.py, lines 211-231), POST branch:
`get_or_404` first (404 when the id is absent), then the ownership check
`current_user.id != job.employer_id and current_user.role != 'admin'`
(in Python, an `int` is never equal to `None`, hence the `Option`
comparison), then the in-place overwrite of the five form fields. -/
def edit_job (db : DB) (caller : User) (job_id : Nat) (f : JobFields) :
    EditResult × DB :=
  match findJob db job_id with
  | none => (.notFound, db)
  | some job =>
    if some caller.id ≠ job.employer_id ∧ caller.role ≠ str "admin" then
      (.forbidden, db)
    else
      (.updated,
        { db with
          jobs := db.jobs.map (fun j =>
            if j.id = job_id then overwriteFields j f else j) })

/-- `order_by(Job.timestamp.desc())`: sort by timestamp, newest first
(a stable sort, as SQLite's sorter is on this data). -/
def orderByTimestampDesc (l : List Job) : List Job :=
  List.insertionSort (fun a b => b.timestamp ≤ a.timestamp) l

/-- `jobs` (src/app.py, lines 234-252): the public search route.  A `None`
or empty filter string is falsy in Python and imposes no constraint; a
non-empty `query` keeps jobs whose title, description or company matches
`ilike %query%`; a non-empty `location` further requires
`location ilike %location%`; the result is ordered by timestamp
descending. -/
def jobs (db : DB) (query location : Option Str) : List Job :=
  let sorted := orderByTimestampDesc db.jobs
  let afterQuery :=
    match query with
    | none => sorted
    | some q =>
      if q = [] then sorted
      else
        sorted.filter (fun j =>
          ilike q j.title || ilike q j.description || ilike q j.company)
  match location with
  | none => afterQuery
  | some loc =>
    if loc = [] then afterQuery
    else afterQuery.filter (fun j => ilike loc j.location)

/-- The role-scoped dashboard view. -/
inductive DashView
  | employer (posted : List Job)
  | admin (alljobs : List Job)
  | seeker (applied_jobs : List Job) (all_jobs : List Job)
  deriving Repr, DecidableEq

/-- Resolve every element or fail: the Python list comprehension
`[app.job for app in ...]` followed by `job.id` raises when some `app.job`
is `None`; the embedding returns `none` in exactly that situation. -/
def resolveAll (f : Application → Option Job) :
    List Application → Option (List Job)
  | [] => some []
  | a :: l =>
    match f a, resolveAll f l with
    | some b, some bs => some (b :: bs)
    | _, _ => none

/-- `application.job` — follow the nullable foreign key. -/
def appJob (db : DB) (a : Application) : Option Job :=
  a.job_id.bind (findJob db)

/-- `dashboard` (src/app.py, lines 148-164): employers see their own
jobs; admins see all jobs newest-first; every other role falls into the
job-seeker branch, which partitions the catalog into the jobs the caller
has applied to and all remaining jobs newest-first (excluded by applied
job id).  Returns `none` when the seeker branch would raise (an
application whose job row is missing). -/
def dashboard (db : DB) (caller : User) : Option DashView :=
  if caller.role = str "employer" ∨ caller.role = str "admin" then
    if caller.role = str "employer" then
      some (.employer (db.jobs.filter (fun j => j.employer_id == some caller.id)))
    else
      some (.admin (orderByTimestampDesc db.jobs))
  else
    match resolveAll (appJob db)
        (db.apps.filter (fun a => a.job_seeker_id == some caller.id)) with
    | none => none
    | some applied_jobs =>
      let applied_job_ids := applied_jobs.map (·.id)
      some (.seeker applied_jobs
        ((orderByTimestampDesc db.jobs).filter
          (fun j => ¬ applied_job_ids.contains j.id)))

/-- Outcome of the `apply_job` POST handler, in source order of the
checks. -/
inductive ApplyResult
  | forbidden
  | notFound
  | alreadyApplied
  | noFilePart
  | emptyFilename
  | unsupportedType
  | applied
  deriving Repr, DecidableEq

/-- The flash category each `apply_job` outcome surfaces (`none` for the
404 abort, which flashes nothing). -/
def apply_flash : ApplyResult → Option Flash
  | .forbidden => some .danger
  | .notFound => none
  | .alreadyApplied => some .info
  | .noFilePart => some .danger
  | .emptyFilename => some .danger
  | .unsupportedType => some .danger
  | .applied => some .success

/-- The stored filename derived in `apply_job`:
`secure_filename(f"{current_user.username}_{job.company}_{file.filename}")`. -/
def derivedFilename (caller : User) (job : Job) (fname : Str) : Str :=
  secure_filename (caller.username ++ str "_" ++ job.company ++ str "_" ++ fname)

/-- The `Application` row inserted by a successful `apply_job`. -/
def newApplication (db : DB) (caller : User) (job_id : Nat) (job : Job)
    (fname : Str) (now : Nat) : Application :=
  { id := nextId (db.apps.map (·.id))
    applicant_name := caller.username
    applicant_email := caller.email
    resume_filename := derivedFilename caller job fname
    timestamp := now
    job_id := some job_id
    job_seeker_id := some caller.id }

/-- `apply_job` (src/app.py, lines 279-323).  The upload argument is
`none` when the request has no `resume` file part, `some fname` otherwise.
Checks in source order: role must be exactly `job_seeker`; the job must
exist (`get_or_404`); an existing `(job_id, job_seeker_id)` application
short-circuits with an info notice and no change; then the file part,
empty-filename and `allowed_file` checks; on success the file is saved
under the sanitised derived name and one `Application` row is inserted. -/
def apply_job (db : DB) (caller : User) (job_id : Nat)
    (upload : Option Str) (now : Nat) : ApplyResult × DB :=
  if caller.role ≠ str "job_seeker" then
    (.forbidden, db)
  else
    match findJob db job_id with
    | none => (.notFound, db)
    | some job =>
      if (db.apps.find? (fun a =>
            a.job_id == some job_id && a.job_seeker_id == some caller.id)).isSome then
        (.alreadyApplied, db)
      else
        match upload with
        | none => (.noFilePart, db)
        | some fname =>
          if fname = [] then (.emptyFilename, db)
          else if allowed_file fname then
            (.applied,
              { db with
                apps := db.apps ++ [newApplication db caller job_id job fname now]
                files := db.files ++ [derivedFilename caller job fname] })
          else
            (.unsupportedType, db)

/-- Outcome of the `download_resume` handler.  `internalError` models the
`AttributeError` the source raises when the matched application's job row
is missing (orphaned `job_id`). -/
inductive DownloadResult
  | notFound
  | internalError
  | forbidden
  | sent (filename : Str)
  deriving Repr, DecidableEq

/-- `download_resume` (src/app.py, lines 325-335): `first_or_404` on
`resume_filename`, then the ownership check
`current_user.id != job.employer_id and current_user.role != 'admin'`,
then `send_from_directory` streams the stored file. -/
def download_resume (db : DB) (caller : User) (filename : Str) :
    DownloadResult :=
  match db.apps.find? (fun a => a.resume_filename == filename) with
  | none => .notFound
  | some application =>
    match appJob db application with
    | none => .internalError
    | some job =>
      if some caller.id ≠ job.employer_id ∧ caller.role ≠ str "admin" then
        .forbidden
      else
        .sent filename

/-- Outcome of the admin delete handlers. -/
inductive DeleteResult
  | forbidden
  | notFound
  | deleted
  deriving Repr, DecidableEq

/-- `delete_user` (src/app.py, lines 337-348): admin-only, then
`get_or_404`, then `db.session.delete(user)`.  The `User.jobs_posted` and
`User.applications` relationships declare no delete cascade, so SQLAlchemy
deletes the user row and detaches the children: every `Job` of the user
gets `employer_id = NULL`, every `Application` of the user gets
`job_seeker_id = NULL`; no child row is deleted. -/
def delete_user (db : DB) (caller : User) (user_id : Nat) :
    DeleteResult × DB :=
  if caller.role ≠ str "admin" then (.forbidden, db)
  else
    match findUser db user_id with
    | none => (.notFound, db)
    | some _ =>
      (.deleted,
        { db with
          users := db.users.filter (fun u => u.id ≠ user_id)
          jobs := db.jobs.map (fun j =>
            if j.employer_id = some user_id then { j with employer_id := none }
            else j)
          apps := db.apps.map (fun a =>
            if a.job_seeker_id = some user_id then
              { a with job_seeker_id := none }
            else a) })

/-- `delete_job` (src/app.py, lines 350-361): admin-only, then
`get_or_404`, then `db.session.delete(job)`.  The `Job.applications`
relationship declares no delete cascade, so the job row is deleted and its
applications are detached (`job_id = NULL`), not deleted. -/
def delete_job (db : DB) (caller : User) (job_id : Nat) :
    DeleteResult × DB :=
  if caller.role ≠ str "admin" then (.forbidden, db)
  else
    match findJob db job_id with
    | none => (.notFound, db)
    | some _ =>
      (.deleted,
        { db with
          jobs := db.jobs.filter (fun j => j.id ≠ job_id)
          apps := db.apps.map (fun a =>
            if a.job_id = some job_id then { a with job_id := none }
            else a) })

/-- Number of applications recorded for one `(job, seeker)` pair. -/
def countPair (db : DB) (jid uid : Nat) : Nat :=
  (db.apps.filter (fun a =>
    a.job_id == some jid && a.job_seeker_id == some uid)).length

/-- The sort order of `order_by(Job.timestamp.desc())`: each element's
timestamp bounds every later element's from above. -/
def sortedByTimestampDesc (l : List Job) : Prop :=
  List.Pairwise (fun a b => b.timestamp ≤ a.timestamp) l

/-! ## Concrete fixtures

A small populated database used to instantiate the theorems below on
concrete inputs: an admin, an employer (`wBob`) who owns two jobs, a job
seeker (`wAlice`) with one application, and a user with an unrecognised
role string (`wEve`). -/

def wAdmin : User :=
  { id := 1, username := str "Admin", email := str "admin@example.com"
    password_hash := str "h1", role := str "admin" }

def wBob : User :=
  { id := 2, username := str "bob", email := str "b@x.com"
    password_hash := str "h2", role := str "employer" }

def wAlice : User :=
  { id := 3, username := str "alice", email := str "a@x.com"
    password_hash := str "h3", role := str "job_seeker" }

def wEve : User :=
  { id := 4, username := str "eve", email := str "e@x.com"
    password_hash := str "h4", role := str "moderator" }

def wJob1 : Job :=
  { id := 10, title := str "Engineer", description := str "Build things"
    salary := str "100k", location := str "New York", company := str "Acme"
    timestamp := 5, employer_id := some 2 }

def wJob2 : Job :=
  { id := 20, title := str "Chef", description := str "Cook meals"
    salary := str "80k", location := str "Boston", company := str "Food Co"
    timestamp := 7, employer_id := some 2 }

def wApp1 : Application :=
  { id := 1, applicant_name := str "alice", applicant_email := str "a@x.com"
    resume_filename := str "alice_Acme_r.pdf", timestamp := 9
    job_id := some 10, job_seeker_id := some 3 }

/-- Fixture database before any application. -/
def wdb : DB :=
  { users := [wAdmin, wBob, wAlice, wEve], jobs := [wJob1, wJob2]
    apps := [], files := [] }

/-- Fixture database after `wAlice` applied to job 10. -/
def wdbA : DB :=
  { users := [wAdmin, wBob, wAlice, wEve], jobs := [wJob1, wJob2]
    apps := [wApp1], files := [str "alice_Acme_r.pdf"] }

/-- Fixture form fields for job creation and edits. -/
def wFields : JobFields :=
  { title := str "T2", description := str "D2", salary := str "S2"
    location := str "L2", company := str "C2" }

/-! ## Helper lemmas: prefix, segment and LIKE-pattern matching -/

theorem segAt_iff (q s : Str) : segAt q s = true ↔ ∃ r, s = q ++ r := by
  induction q generalizing s with
  | nil => simp [segAt]
  | cons a q ih =>
    cases s with
    | nil => simp [segAt]
    | cons b s =>
      simp only [segAt, Bool.and_eq_true, beq_iff_eq, ih, List.cons_append,
        List.cons.injEq]
      constructor
      · rintro ⟨rfl, r, rfl⟩
        exact ⟨r, rfl, rfl⟩
      · rintro ⟨r, rfl, rfl⟩
        exact ⟨rfl, r, rfl⟩

theorem hasSeg_iff (q s : Str) :
    hasSeg q s = true ↔ ∃ l r, s = l ++ q ++ r := by
  induction s with
  | nil =>
    simp only [hasSeg, segAt_iff]
    constructor
    · rintro ⟨r, h⟩
      exact ⟨[], r, h⟩
    · rintro ⟨l, r, h⟩
      rw [eq_comm, List.append_assoc, List.append_eq_nil] at h
      exact ⟨r, by simp [h.1, h.2.symm]⟩
  | cons c s ih =>
    simp only [hasSeg, Bool.or_eq_true, segAt_iff, ih]
    constructor
    · rintro (⟨r, h⟩ | ⟨l, r, h⟩)
      · exact ⟨[], r, by simpa using h⟩
      · exact ⟨c :: l, r, by simp [h]⟩
    · rintro ⟨l, r, h⟩
      cases l with
      | nil => exact Or.inl ⟨r, by simpa using h⟩
      | cons x l =>
        simp only [List.cons_append, List.cons.injEq] at h
        exact Or.inr ⟨l, r, h.2⟩

theorem subCIb_iff (q s : Str) : subCIb q s = true ↔ SubCI q s := by
  simp [subCIb, SubCI, hasSeg_iff]

theorem tryTails_iff (f : Str → Bool) (s : Str) :
    tryTails f s = true ↔ ∃ s₁ s₂, s = s₁ ++ s₂ ∧ f s₂ = true := by
  induction s with
  | nil =>
    simp only [tryTails]
    constructor
    · intro h
      exact ⟨[], [], rfl, h⟩
    · rintro ⟨s₁, s₂, h, hf⟩
      obtain ⟨rfl, rfl⟩ := List.append_eq_nil.mp h.symm
      exact hf
  | cons c s ih =>
    simp only [tryTails, Bool.or_eq_true, ih]
    constructor
    · rintro (h | ⟨s₁, s₂, hs, hf⟩)
      · exact ⟨[], c :: s, rfl, h⟩
      · exact ⟨c :: s₁, s₂, by rw [hs, List.cons_append], hf⟩
    · rintro ⟨s₁, s₂, hs, hf⟩
      cases s₁ with
      | nil =>
        rw [List.nil_append] at hs
        exact Or.inl (by rw [hs]; exact hf)
      | cons x s₁ =>
        rw [List.cons_append] at hs
        obtain ⟨rfl, hs2⟩ := List.cons.inj hs
        exact Or.inr ⟨s₁, s₂, hs2, hf⟩

theorem lowerStr_append (a b : Str) :
    lowerStr (a ++ b) = lowerStr a ++ lowerStr b := by
  simp [lowerStr]

theorem noWildcards_tail {a : Char} {p : Str} (hp : noWildcards (a :: p)) :
    noWildcards p :=
  ⟨fun h => hp.1 (List.mem_cons_of_mem _ h),
   fun h => hp.2 (List.mem_cons_of_mem _ h)⟩

theorem noWildcards_head_pct {a : Char} {p : Str} (hp : noWildcards (a :: p)) :
    a ≠ '%' :=
  fun h => hp.1 (h ▸ List.mem_cons_self a p)

theorem noWildcards_head_us {a : Char} {p : Str} (hp : noWildcards (a :: p)) :
    a ≠ '_' :=
  fun h => hp.2 (h ▸ List.mem_cons_self a p)

theorem likeMatch_noWild (p : Str) :
    noWildcards p → ∀ s : Str,
      (likeMatch p s = true ↔ lowerStr s = lowerStr p) := by
  induction p with
  | nil =>
    intro _ s
    cases s <;> simp [likeMatch, lowerStr]
  | cons a p ih =>
    intro hp s
    have hpc := noWildcards_head_pct hp
    have hus := noWildcards_head_us hp
    cases s with
    | nil =>
      simp [likeMatch, hpc, lowerStr]
    | cons c s =>
      simp only [likeMatch, if_neg hpc, Bool.and_eq_true, Bool.or_eq_true,
        decide_eq_true_eq, ih (noWildcards_tail hp) s, lowerStr,
        List.map_cons, List.cons.injEq]
      constructor
      · rintro ⟨(h | h), h2⟩
        · exact absurd h hus
        · exact ⟨h.symm, h2⟩
      · rintro ⟨h1, h2⟩
        exact ⟨Or.inr h1.symm, h2⟩

theorem likeMatch_noWild_pct (p : Str) :
    noWildcards p → ∀ s : Str,
      (likeMatch (p ++ ['%']) s = true ↔
        ∃ s₁ s₂, s = s₁ ++ s₂ ∧ lowerStr s₁ = lowerStr p) := by
  induction p with
  | nil =>
    intro _ s
    rw [List.nil_append]
    constructor
    · intro _
      exact ⟨[], s, rfl, rfl⟩
    · intro _
      show likeMatch ['%'] s = true
      have h : tryTails (likeMatch []) s = true := by
        rw [tryTails_iff]
        exact ⟨s, [], by simp, by simp [likeMatch]⟩
      simpa [likeMatch] using h
  | cons a p ih =>
    intro hp s
    have hpc := noWildcards_head_pct hp
    have hus := noWildcards_head_us hp
    cases s with
    | nil =>
      rw [List.cons_append]
      simp only [likeMatch, if_neg hpc]
      constructor
      · intro h
        simp at h
      · rintro ⟨s₁, s₂, h, hl⟩
        obtain ⟨rfl, rfl⟩ := List.append_eq_nil.mp h.symm
        simp [lowerStr] at hl
    | cons c s =>
      rw [List.cons_append]
      simp only [likeMatch, if_neg hpc, Bool.and_eq_true, Bool.or_eq_true,
        decide_eq_true_eq, ih (noWildcards_tail hp) s]
      constructor
      · rintro ⟨(h | h), s₁, s₂, hs, hl⟩
        · exact absurd h hus
        · refine ⟨c :: s₁, s₂, by rw [hs, List.cons_append], ?_⟩
          simp only [lowerStr, List.map_cons, List.cons.injEq] at hl ⊢
          exact ⟨h.symm, hl⟩
      · rintro ⟨s₁, s₂, hs, hl⟩
        cases s₁ with
        | nil => simp [lowerStr] at hl
        | cons x s₁ =>
          rw [List.cons_append] at hs
          obtain ⟨rfl, hs2⟩ := List.cons.inj hs
          simp only [lowerStr, List.map_cons, List.cons.injEq] at hl
          exact ⟨Or.inr hl.1.symm, s₁, s₂, hs2, hl.2⟩

/-! ## Helper lemmas: lookups, updates and ordering -/

theorem find?_key_mem_nodup {α : Type} (f : α → Nat) :
    ∀ l : List α, (l.map f).Nodup → ∀ j ∈ l,
      l.find? (fun x => f x == f j) = some j := by
  intro l
  induction l with
  | nil =>
    intro _ j hj
    exact absurd hj (List.not_mem_nil j)
  | cons x l ih =>
    intro hnd j hj
    rw [List.map_cons, List.nodup_cons] at hnd
    by_cases hfx : f x = f j
    · have hxj : j = x := by
        rcases List.mem_cons.mp hj with h | h
        · exact h
        · exfalso
          apply hnd.1
          rw [hfx]
          exact List.mem_map_of_mem f h
      subst hxj
      rw [List.find?_cons_of_pos _ (by simp)]
    · have hjl : j ∈ l := by
        rcases List.mem_cons.mp hj with h | h
        · exact absurd (by rw [h]) hfx
        · exact h
      rw [List.find?_cons_of_neg _ (by simp [hfx]), ih hnd.2 j hjl]

theorem findJob_eq_some_iff (db : DB) (hnd : (db.jobs.map (·.id)).Nodup)
    (jid : Nat) (j : Job) :
    findJob db jid = some j ↔ j ∈ db.jobs ∧ j.id = jid := by
  constructor
  · intro h
    exact ⟨List.mem_of_find?_eq_some h, by simpa using List.find?_some h⟩
  · rintro ⟨hm, rfl⟩
    exact find?_key_mem_nodup Job.id db.jobs hnd j hm

theorem find?_map_update {α : Type} (f : α → Nat) (g : α → α)
    (hg : ∀ x, f (g x) = f x) (k : Nat) :
    ∀ (l : List α) (j : α), l.find? (fun x => f x == k) = some j →
      (l.map (fun x => if f x = k then g x else x)).find?
        (fun x => f x == k) = some (g j) := by
  intro l
  induction l with
  | nil =>
    intro j h
    simp [List.find?] at h
  | cons x l ih =>
    intro j h
    by_cases hx : f x = k
    · rw [List.find?_cons_of_pos _ (by simp [hx])] at h
      have hxj := Option.some.inj h
      subst hxj
      rw [List.map_cons, if_pos hx]
      rw [List.find?_cons_of_pos _ (by simp [hg, hx])]
    · rw [List.find?_cons_of_neg _ (by simp [hx])] at h
      rw [List.map_cons, if_neg hx]
      rw [List.find?_cons_of_neg _ (by simp [hx]), ih j h]

theorem resolveAll_mem (f : Application → Option Job) :
    ∀ (l : List Application) (bs : List Job), resolveAll f l = some bs →
      ∀ b, (b ∈ bs ↔ ∃ a ∈ l, f a = some b) := by
  intro l
  induction l with
  | nil =>
    intro bs h b
    simp only [resolveAll, Option.some.injEq] at h
    subst h
    simp
  | cons a l ih =>
    intro bs h b
    cases hfa : f a with
    | none =>
      simp [resolveAll, hfa] at h
    | some j =>
      cases hra : resolveAll f l with
      | none =>
        simp [resolveAll, hfa, hra] at h
      | some js =>
        simp only [resolveAll, hfa, hra, Option.some.injEq] at h
        subst h
        simp only [List.mem_cons]
        rw [ih js hra b]
        constructor
        · rintro (rfl | ⟨a', ha', hfa'⟩)
          · exact ⟨a, Or.inl rfl, hfa⟩
          · exact ⟨a', Or.inr ha', hfa'⟩
        · rintro ⟨a', rfl | h', hfa'⟩
          · rw [hfa] at hfa'
            exact Or.inl (Option.some.inj hfa').symm
          · exact Or.inr ⟨a', h', hfa'⟩

theorem appJob_eq_some (db : DB) (a : Application) (j : Job)
    (h : appJob db a = some j) : j ∈ db.jobs ∧ a.job_id = some j.id := by
  simp only [appJob] at h
  cases hj : a.job_id with
  | none =>
    rw [hj] at h
    simp at h
  | some jid =>
    rw [hj, Option.some_bind] at h
    have h1 := List.find?_some h
    have h2 := List.mem_of_find?_eq_some h
    simp only [beq_iff_eq] at h1
    subst h1
    exact ⟨h2, rfl⟩

theorem appJob_complete (db : DB) (hnd : (db.jobs.map (·.id)).Nodup)
    (a : Application) (j : Job) (hm : j ∈ db.jobs)
    (hid : a.job_id = some j.id) : appJob db a = some j := by
  simp only [appJob, hid, Option.some_bind]
  exact (findJob_eq_some_iff db hnd j.id j).mpr ⟨hm, rfl⟩

theorem sorted_orderByTimestampDesc (l : List Job) :
    sortedByTimestampDesc (orderByTimestampDesc l) := by
  haveI : IsTotal Job (fun a b => b.timestamp ≤ a.timestamp) :=
    ⟨fun a b => Nat.le_total b.timestamp a.timestamp⟩
  haveI : IsTrans Job (fun a b => b.timestamp ≤ a.timestamp) :=
    ⟨fun _ _ _ hab hbc => Nat.le_trans hbc hab⟩
  exact List.sorted_insertionSort _ l

theorem mem_orderByTimestampDesc (l : List Job) (j : Job) :
    j ∈ orderByTimestampDesc l ↔ j ∈ l :=
  (List.perm_insertionSort _ l).mem_iff

theorem sortedByTimestampDesc_filter (p : Job → Bool) (l : List Job)
    (h : sortedByTimestampDesc l) : sortedByTimestampDesc (l.filter p) :=
  List.Pairwise.sublist (List.filter_sublist l) h

theorem ilike_iff_subCI (q : Str) (hq : noWildcards q) (s : Str) :
    ilike q s = true ↔ SubCI q s := by
  have h1 : ilike q s = tryTails (likeMatch (q ++ ['%'])) s := by
    simp [ilike, likeMatch]
  rw [h1, tryTails_iff]
  simp only [SubCI]
  constructor
  · rintro ⟨s₁, s₂, rfl, h⟩
    rw [likeMatch_noWild_pct q hq s₂] at h
    obtain ⟨t₁, t₂, rfl, ht⟩ := h
    exact ⟨lowerStr s₁, lowerStr t₂, by
      simp [lowerStr_append, ht, List.append_assoc]⟩
  · rintro ⟨l, r, h⟩
    rw [List.append_assoc] at h
    have h' : List.map Char.toLower s = l ++ (lowerStr q ++ r) := h
    rw [List.map_eq_append_iff] at h'
    obtain ⟨s₁, u, rfl, _, hu⟩ := h'
    rw [List.map_eq_append_iff] at hu
    obtain ⟨t₁, t₂, rfl, ht₁, _⟩ := hu
    refine ⟨s₁, t₁ ++ t₂, rfl, ?_⟩
    rw [likeMatch_noWild_pct q hq]
    exact ⟨t₁, t₂, rfl, ht₁⟩

theorem find?_singleton {α : Type} (p : α → Bool) (a : α) (h : p a = true) :
    List.find? p [a] = some a :=
  List.find?_cons_of_pos _ h

/-- The stored hash is never the plaintext password. -/
theorem generate_password_hash_ne (p : Str) : generate_password_hash p ≠ p := by
  intro h
  have hl := congrArg List.length h
  rw [generate_password_hash, List.length_append] at hl
  have h14 : (str "pbkdf2:sha256$").length = 14 := by decide
  omega

/-- Registration with an email no existing user carries appends exactly
one new user row. -/
theorem register_fresh (db : DB) (username email password role : Str)
    (h : ∀ u ∈ db.users, u.email ≠ email) :
    (register db username email password role).1 = .registered ∧
    (register db username email password role).2.users =
      db.users ++ [{ id := nextId (db.users.map (·.id))
                     username := username
                     email := email
                     password_hash := generate_password_hash password
                     role := role }] := by
  have hf : db.users.find? (fun u => u.email == email) = none := by
    rw [List.find?_eq_none]
    intro u hu
    simp only [beq_iff_eq]
    exact h u hu
  simp [register, hf]

/-! ## Helper lemmas: inversion of a successful application -/

/-- A successful `apply_job` pins down every branch condition and the
successor state. -/
theorem apply_job_applied_inv (db : DB) (caller : User) (jid : Nat)
    (up : Option Str) (now : Nat)
    (h : (apply_job db caller jid up now).1 = .applied) :
    caller.role = str "job_seeker" ∧
    db.apps.find? (fun a =>
      a.job_id == some jid && a.job_seeker_id == some caller.id) = none ∧
    ∃ job fname, findJob db jid = some job ∧ up = some fname ∧
      fname ≠ [] ∧ allowed_file fname = true ∧
      apply_job db caller jid up now =
        (.applied,
          { db with
            apps := db.apps ++ [newApplication db caller jid job fname now]
            files := db.files ++ [derivedFilename caller job fname] }) := by
  unfold apply_job at h ⊢
  split at h
  · simp at h
  rename_i hrole
  split at h
  · simp at h
  rename_i job hfind
  split at h
  · simp at h
  rename_i hex
  split at h
  · simp at h
  rename_i fname
  split at h
  · simp at h
  rename_i hfname
  split at h
  · rename_i hallow
    refine ⟨not_not.mp hrole, Option.not_isSome_iff_eq_none.mp hex,
      job, fname, hfind, rfl, hfname, hallow, ?_⟩
    rw [if_neg hex, if_neg hfname, if_pos hallow, if_neg hrole]
  · simp at h

/-! ## Claim theorems -/

/-- C1: for every (job, seeker) pair at most one Application record
exists: after one successful apply by a job seeker for a job, a second
apply by the same seeker for the same job returns AlreadyApplied — an
info-category user notice, not a danger-category error — creates no
second Application record and leaves the whole state unchanged; the pair
had no Application before the first apply and exactly one after it. -/
theorem C1_second_apply_is_noop (db : DB) (caller : User) (jid : Nat)
    (up up2 : Option Str) (now now2 : Nat)
    (h : (apply_job db caller jid up now).1 = .applied) :
    apply_job ((apply_job db caller jid up now).2) caller jid up2 now2 =
      (.alreadyApplied, (apply_job db caller jid up now).2) ∧
    apply_flash .alreadyApplied = some .info ∧
    apply_flash .alreadyApplied ≠ some .danger ∧
    countPair db jid caller.id = 0 ∧
    countPair ((apply_job db caller jid up now).2) jid caller.id = 1 := by
  obtain ⟨hrole, hex, job, fname, hfind, hup, hfname, hallow, heq⟩ :=
    apply_job_applied_inv db caller jid up now h
  set newApp := newApplication db caller jid job fname now with hnewApp
  have hpnew : (fun a : Application =>
      a.job_id == some jid && a.job_seeker_id == some caller.id) newApp = true := by
    simp [hnewApp, newApplication]
  have hfilnil : db.apps.filter (fun a =>
      a.job_id == some jid && a.job_seeker_id == some caller.id) = [] := by
    rw [List.filter_eq_nil_iff]
    exact List.find?_eq_none.mp hex
  rw [heq]
  refine ⟨?_, rfl, by decide, ?_, ?_⟩
  · show apply_job
      { db with
        apps := db.apps ++ [newApp]
        files := db.files ++ [derivedFilename caller job fname] }
      caller jid up2 now2 =
      (.alreadyApplied,
        { db with
          apps := db.apps ++ [newApp]
          files := db.files ++ [derivedFilename caller job fname] })
    have hrole' : ¬(caller.role ≠ str "job_seeker") := by simp [hrole]
    have hfindd : findJob
        { db with
          apps := db.apps ++ [newApp]
          files := db.files ++ [derivedFilename caller job fname] } jid =
        some job := hfind
    have hfound : (db.apps ++ [newApp]).find? (fun a =>
        a.job_id == some jid && a.job_seeker_id == some caller.id) =
        some newApp := by
      rw [List.find?_append, hex]
      exact find?_singleton (fun a =>
        a.job_id == some jid && a.job_seeker_id == some caller.id) newApp hpnew
    simp [apply_job, if_neg hrole', hfindd, hfound]
  · simp [countPair, hfilnil]
  · show ((db.apps ++ [newApp]).filter (fun a =>
      a.job_id == some jid && a.job_seeker_id == some caller.id)).length = 1
    rw [List.filter_append, hfilnil]
    simp [hpnew]

/-- Witness for C1: Alice's first application to job 10 succeeds; her
second attempt is the recorded no-op notice. -/
theorem C1_second_apply_is_noop_witness :
    (apply_job wdb wAlice 10 (some (str "r.pdf")) 9).1 = .applied ∧
    (apply_job ((apply_job wdb wAlice 10 (some (str "r.pdf")) 9).2) wAlice 10
        (some (str "r.pdf")) 11 =
      (.alreadyApplied, (apply_job wdb wAlice 10 (some (str "r.pdf")) 9).2) ∧
     apply_flash .alreadyApplied = some .info ∧
     apply_flash .alreadyApplied ≠ some .danger ∧
     countPair wdb 10 wAlice.id = 0 ∧
     countPair ((apply_job wdb wAlice 10 (some (str "r.pdf")) 9).2) 10
       wAlice.id = 1) :=
  ⟨by decide, C1_second_apply_is_noop wdb wAlice 10 (some (str "r.pdf"))
    (some (str "r.pdf")) 9 11 (by decide)⟩

/-- C8: a second registration with an already-registered email fails with
the DuplicateEmail notice and creates no record; a fresh email creates
exactly one new User carrying the given username, email and role and a
hashed, non-plaintext password. -/
theorem C8_register_email_uniqueness (db : DB)
    (username email password role : Str) :
    ((∃ u ∈ db.users, u.email = email) →
      register db username email password role = (.duplicateEmail, db)) ∧
    ((∀ u ∈ db.users, u.email ≠ email) →
      (register db username email password role).1 = .registered ∧
      ∃ nu : User,
        (register db username email password role).2.users =
          db.users ++ [nu] ∧
        nu.username = username ∧ nu.email = email ∧ nu.role = role ∧
        nu.password_hash = generate_password_hash password ∧
        nu.password_hash ≠ password) := by
  constructor
  · rintro ⟨u, hu, he⟩
    have hf : (db.users.find? (fun u => u.email == email)).isSome := by
      rw [List.find?_isSome]
      exact ⟨u, hu, by simp [he]⟩
    simp [register, hf]
  · intro h
    obtain ⟨h1, h2⟩ := register_fresh db username email password role h
    exact ⟨h1, _, h2, rfl, rfl, rfl, rfl, generate_password_hash_ne password⟩

/-- Witness for C8: re-registering Bob's email is rejected; a fresh email
registers a new user with a hashed password. -/
theorem C8_register_email_uniqueness_witness :
    ((∃ u ∈ wdb.users, u.email = str "b@x.com") →
      register wdb (str "mallory") (str "b@x.com") (str "pw")
        (str "employer") = (.duplicateEmail, wdb)) ∧
    ((∀ u ∈ wdb.users, u.email ≠ str "b@x.com") →
      (register wdb (str "mallory") (str "b@x.com") (str "pw")
        (str "employer")).1 = .registered ∧
      ∃ nu : User,
        (register wdb (str "mallory") (str "b@x.com") (str "pw")
          (str "employer")).2.users = wdb.users ++ [nu] ∧
        nu.username = str "mallory" ∧ nu.email = str "b@x.com" ∧
        nu.role = str "employer" ∧
        nu.password_hash = generate_password_hash (str "pw") ∧
        nu.password_hash ≠ str "pw") :=
  C8_register_email_uniqueness wdb (str "mallory") (str "b@x.com")
    (str "pw") (str "employer")

/-- C9: an upload whose filename is empty or whose extension (the
case-insensitive portion after the last dot) is not pdf/doc/docx never
changes the state — no Application row and no stored file — and, on the
path where the other checks pass, fails with exactly the EmptyFilename
or UnsupportedType notice. -/
theorem C9_bad_upload_rejected (db : DB) (caller : User) (jid : Nat)
    (fname : Str) (now : Nat)
    (h : fname = [] ∨ allowed_file fname = false) :
    (apply_job db caller jid (some fname) now).2 = db ∧
    (apply_job db caller jid (some fname) now).1 ≠ .applied ∧
    (caller.role = str "job_seeker" → (findJob db jid).isSome →
      db.apps.find? (fun a =>
        a.job_id == some jid && a.job_seeker_id == some caller.id) = none →
      (apply_job db caller jid (some fname) now).1 =
        if fname = [] then .emptyFilename else .unsupportedType) := by
  by_cases hrole : caller.role = str "job_seeker"
  · cases hfind : findJob db jid with
    | none =>
      refine ⟨?_, ?_, ?_⟩ <;> simp [apply_job, hrole, hfind]
    | some job =>
      cases hex : db.apps.find? (fun a =>
          a.job_id == some jid && a.job_seeker_id == some caller.id) with
      | some a0 =>
        refine ⟨?_, ?_, ?_⟩ <;> simp [apply_job, hrole, hfind, hex]
      | none =>
        by_cases hf : fname = []
        · refine ⟨?_, ?_, ?_⟩ <;> simp [apply_job, hrole, hfind, hex, hf]
        · have hal : allowed_file fname = false := by
            rcases h with h | h
            · exact absurd h hf
            · exact h
          refine ⟨?_, ?_, ?_⟩ <;>
            simp [apply_job, hrole, hfind, hex, hf, hal]
  · refine ⟨?_, ?_, ?_⟩ <;> simp [apply_job, hrole]

/-- Witness for C9: an `.exe` upload by Alice on an open job is rejected
as UnsupportedType with the database unchanged. -/
theorem C9_bad_upload_rejected_witness :
    ((str "virus.exe" : Str) = [] ∨ allowed_file (str "virus.exe") = false) ∧
    ((apply_job wdb wAlice 10 (some (str "virus.exe")) 9).2 = wdb ∧
     (apply_job wdb wAlice 10 (some (str "virus.exe")) 9).1 ≠ .applied ∧
     (wAlice.role = str "job_seeker" → (findJob wdb 10).isSome →
       wdb.apps.find? (fun a =>
         a.job_id == some 10 && a.job_seeker_id == some wAlice.id) = none →
       (apply_job wdb wAlice 10 (some (str "virus.exe")) 9).1 =
         if (str "virus.exe" : Str) = [] then .emptyFilename
         else .unsupportedType)) :=
  ⟨by decide, C9_bad_upload_rejected wdb wAlice 10 (str "virus.exe") 9
    (by decide)⟩

/-- C10: roles are compared by exact string equality and the enum is
open: registration stores any caller-supplied role string; a logged-in
user with an unrecognised role string falls into the job-seeker dashboard
branch, yet can neither apply (apply requires exactly job_seeker) nor
post a job (posting requires exactly employer or admin). -/
theorem C10_open_role_enum (db : DB) (caller : User)
    (r username email password : Str) (hr : caller.role = r)
    (hne : r ≠ str "employer") (hna : r ≠ str "admin")
    (hns : r ≠ str "job_seeker") :
    ((∀ u ∈ db.users, u.email ≠ email) →
      ∃ nu : User,
        (register db username email password r).2.users =
          db.users ++ [nu] ∧ nu.role = r) ∧
    (∀ v, dashboard db caller = some v →
      ∃ applied others, v = .seeker applied others) ∧
    (∀ jid upload now, apply_job db caller jid upload now =
      (.forbidden, db)) ∧
    (∀ f now, job_form db caller f now = (.forbidden, db)) := by
  refine ⟨?_, ?_, ?_, ?_⟩
  · intro h
    obtain ⟨_, h2⟩ := register_fresh db username email password r h
    exact ⟨_, h2, rfl⟩
  · intro v hv
    rw [dashboard, hr, if_neg (by simp [hne, hna])] at hv
    cases hra : resolveAll (appJob db)
        (db.apps.filter fun a => a.job_seeker_id == some caller.id) with
    | none =>
      rw [hra] at hv
      simp at hv
    | some applied =>
      rw [hra] at hv
      simp only [Option.some.injEq] at hv
      exact ⟨applied, _, hv.symm⟩
  · intro jid upload now
    have : caller.role ≠ str "job_seeker" := by rw [hr]; exact hns
    simp [apply_job, this]
  · intro f now
    have : ¬(caller.role = str "employer" ∨ caller.role = str "admin") := by
      rw [hr]
      simp [hne, hna]
    simp [job_form, this]

/-- Witness for C10 at role string "moderator". -/
theorem C10_open_role_enum_witness :
    wEve.role = str "moderator" ∧
    (((∀ u ∈ wdb.users, u.email ≠ str "m@x.com") →
      ∃ nu : User,
        (register wdb (str "m") (str "m@x.com") (str "pw")
          (str "moderator")).2.users = wdb.users ++ [nu] ∧
        nu.role = str "moderator") ∧
    (∀ v, dashboard wdb wEve = some v →
      ∃ applied others, v = .seeker applied others) ∧
    (∀ jid upload now, apply_job wdb wEve jid upload now =
      (.forbidden, wdb)) ∧
    (∀ f now, job_form wdb wEve f now = (.forbidden, wdb))) :=
  ⟨by decide, C10_open_role_enum wdb wEve (str "moderator") (str "m")
    (str "m@x.com") (str "pw") (by decide) (by decide) (by decide)
    (by decide)⟩

/-- C4: editing a job fails NotFound when the id is absent; a caller who
is neither the owning employer nor an admin gets Forbidden with the
database — hence every field of the job — unchanged; a permitted update
overwrites exactly title/description/salary/location/company and leaves
the job's id and timestamp (and all other rows) unchanged. -/
theorem C4_edit_job_auth (db : DB) (caller : User) (jid : Nat)
    (f : JobFields) (job : Job) :
    (findJob db jid = none → edit_job db caller jid f = (.notFound, db)) ∧
    (findJob db jid = some job →
      some caller.id ≠ job.employer_id → caller.role ≠ str "admin" →
      edit_job db caller jid f = (.forbidden, db)) ∧
    (findJob db jid = some job →
      (some caller.id = job.employer_id ∨ caller.role = str "admin") →
      (edit_job db caller jid f).1 = .updated ∧
      findJob (edit_job db caller jid f).2 jid =
        some (overwriteFields job f) ∧
      (overwriteFields job f).id = job.id ∧
      (overwriteFields job f).timestamp = job.timestamp ∧
      (overwriteFields job f).employer_id = job.employer_id ∧
      (overwriteFields job f).title = f.title ∧
      (overwriteFields job f).description = f.description ∧
      (overwriteFields job f).salary = f.salary ∧
      (overwriteFields job f).location = f.location ∧
      (overwriteFields job f).company = f.company ∧
      (edit_job db caller jid f).2.users = db.users ∧
      (edit_job db caller jid f).2.apps = db.apps ∧
      (edit_job db caller jid f).2.files = db.files) := by
  refine ⟨?_, ?_, ?_⟩
  · intro h
    simp [edit_job, h]
  · intro h h1 h2
    simp [edit_job, h, h1, h2]
  · intro h hperm
    have hcond : ¬(some caller.id ≠ job.employer_id ∧
        caller.role ≠ str "admin") := by
      rcases hperm with h' | h'
      · intro hc
        exact hc.1 h'
      · intro hc
        exact hc.2 h'
    have hupd := find?_map_update Job.id (fun x => overwriteFields x f)
      (fun x => rfl) jid db.jobs job h
    have h' : List.find? (fun j => j.id == jid) db.jobs = some job := h
    refine ⟨?_, ?_, rfl, rfl, rfl, rfl, rfl, rfl, rfl, rfl, ?_, ?_, ?_⟩ <;>
      simp only [edit_job, findJob, h', if_neg hcond] <;>
      first
        | rfl
        | exact hupd

/-- Witness for C4: Eve (neither owner nor admin) is refused; Bob, the
owning employer, updates job 10 in place. -/
theorem C4_edit_job_auth_witness :
    (findJob wdb 10 = some wJob1 ∧ some wEve.id ≠ wJob1.employer_id ∧
      wEve.role ≠ str "admin" ∧
      edit_job wdb wEve 10 wFields = (.forbidden, wdb)) ∧
    (some wBob.id = wJob1.employer_id ∨ wBob.role = str "admin") ∧
    ((edit_job wdb wBob 10 wFields).1 = .updated ∧
      findJob (edit_job wdb wBob 10 wFields).2 10 =
        some (overwriteFields wJob1 wFields) ∧
      (overwriteFields wJob1 wFields).id = wJob1.id ∧
      (overwriteFields wJob1 wFields).timestamp = wJob1.timestamp ∧
      (overwriteFields wJob1 wFields).employer_id = wJob1.employer_id ∧
      (overwriteFields wJob1 wFields).title = wFields.title ∧
      (overwriteFields wJob1 wFields).description = wFields.description ∧
      (overwriteFields wJob1 wFields).salary = wFields.salary ∧
      (overwriteFields wJob1 wFields).location = wFields.location ∧
      (overwriteFields wJob1 wFields).company = wFields.company ∧
      (edit_job wdb wBob 10 wFields).2.users = wdb.users ∧
      (edit_job wdb wBob 10 wFields).2.apps = wdb.apps ∧
      (edit_job wdb wBob 10 wFields).2.files = wdb.files) :=
  ⟨⟨by decide, by decide, by decide,
    (C4_edit_job_auth wdb wEve 10 wFields wJob1).2.1 (by decide) (by decide)
      (by decide)⟩,
   by decide,
   (C4_edit_job_auth wdb wBob 10 wFields wJob1).2.2 (by decide) (by decide)⟩

/-- C5: resume retrieval is NotFound when no Application row references
the stored filename; when one does and its job row exists, the file is
returned exactly when the caller is the owning employer or an admin, and
every other caller is refused with Forbidden. -/
theorem C5_download_resume_auth (db : DB) (caller : User) (filename : Str)
    (application : Application) (job : Job) :
    (db.apps.find? (fun a => a.resume_filename == filename) = none →
      download_resume db caller filename = .notFound) ∧
    (db.apps.find? (fun a => a.resume_filename == filename) =
        some application →
      appJob db application = some job →
      ((download_resume db caller filename = .sent filename ↔
        (some caller.id = job.employer_id ∨ caller.role = str "admin")) ∧
       (¬(some caller.id = job.employer_id ∨ caller.role = str "admin") →
        download_resume db caller filename = .forbidden))) := by
  constructor
  · intro h
    simp [download_resume, h]
  · intro h1 h2
    by_cases hperm : some caller.id = job.employer_id ∨
        caller.role = str "admin"
    · have hcond : ¬(some caller.id ≠ job.employer_id ∧
          caller.role ≠ str "admin") := by
        rcases hperm with h' | h'
        · intro hc
          exact hc.1 h'
        · intro hc
          exact hc.2 h'
      simp [download_resume, h1, h2, if_neg hcond, hperm]
    · have hcond : some caller.id ≠ job.employer_id ∧
          caller.role ≠ str "admin" := by
        constructor
        · intro he
          exact hperm (Or.inl he)
        · intro he
          exact hperm (Or.inr he)
      simp [download_resume, h1, h2, if_pos hcond, hperm]

/-- Witness for C5: Bob (owner) obtains Alice's stored resume; Alice
herself is refused. -/
theorem C5_download_resume_auth_witness :
    (wdbA.apps.find? (fun a =>
        a.resume_filename == str "alice_Acme_r.pdf") = some wApp1 ∧
     appJob wdbA wApp1 = some wJob1) ∧
    ((download_resume wdbA wBob (str "alice_Acme_r.pdf") =
        .sent (str "alice_Acme_r.pdf") ↔
      (some wBob.id = wJob1.employer_id ∨ wBob.role = str "admin")) ∧
     (¬(some wBob.id = wJob1.employer_id ∨ wBob.role = str "admin") →
      download_resume wdbA wBob (str "alice_Acme_r.pdf") = .forbidden)) ∧
    ((download_resume wdbA wAlice (str "alice_Acme_r.pdf") =
        .sent (str "alice_Acme_r.pdf") ↔
      (some wAlice.id = wJob1.employer_id ∨ wAlice.role = str "admin")) ∧
     (¬(some wAlice.id = wJob1.employer_id ∨ wAlice.role = str "admin") →
      download_resume wdbA wAlice (str "alice_Acme_r.pdf") = .forbidden)) :=
  ⟨⟨by decide, by decide⟩,
   (C5_download_resume_auth wdbA wBob (str "alice_Acme_r.pdf") wApp1
      wJob1).2 (by decide) (by decide),
   (C5_download_resume_auth wdbA wAlice (str "alice_Acme_r.pdf") wApp1
      wJob1).2 (by decide) (by decide)⟩

/-- C2 counterexample: deleting employer Bob (id 2) does not delete his
job 10 — it stays retrievable, detached — and deleting seeker Alice
(id 3) does not delete her application — it stays with a null seeker
foreign key.  The spec's cascade delete does not happen. -/
theorem C2_counterexample :
    wBob.id = 2 ∧ wJob1.employer_id = some 2 ∧ wJob1 ∈ wdbA.jobs ∧
    (delete_user wdbA wAdmin 2).1 = .deleted ∧
    findJob (delete_user wdbA wAdmin 2).2 10 =
      some { wJob1 with employer_id := none } ∧
    (delete_user wdbA wAdmin 2).2.jobs.length = wdbA.jobs.length ∧
    wAlice.id = 3 ∧ wApp1.job_seeker_id = some 3 ∧ wApp1 ∈ wdbA.apps ∧
    (delete_user wdbA wAdmin 3).1 = .deleted ∧
    (delete_user wdbA wAdmin 3).2.apps =
      [{ wApp1 with job_seeker_id := none }] := by
  decide

/-- C2 (amended): admin `delete_user` removes the user row and, because
no relationship declares a delete cascade, detaches rather than deletes
the user's rows: every Job keeps its row with `employer_id` nulled and
every Application keeps its row with `job_seeker_id` nulled, so no
remaining row references the deleted id, but all of them stay
retrievable. -/
theorem C2_delete_user_detaches (db : DB) (caller : User) (uid : Nat)
    (hrole : caller.role = str "admin") (hex : (findUser db uid).isSome) :
    (delete_user db caller uid).1 = .deleted ∧
    (∀ u ∈ (delete_user db caller uid).2.users, u.id ≠ uid) ∧
    (∀ j ∈ (delete_user db caller uid).2.jobs, j.employer_id ≠ some uid) ∧
    (∀ a ∈ (delete_user db caller uid).2.apps,
      a.job_seeker_id ≠ some uid) ∧
    (delete_user db caller uid).2.jobs.length = db.jobs.length ∧
    (delete_user db caller uid).2.apps.length = db.apps.length ∧
    (delete_user db caller uid).2.jobs.map (·.id) = db.jobs.map (·.id) ∧
    (delete_user db caller uid).2.apps.map (·.id) = db.apps.map (·.id) ∧
    (delete_user db caller uid).2.files = db.files := by
  have hnr : ¬(caller.role ≠ str "admin") := by simp [hrole]
  obtain ⟨u0, hu0⟩ := Option.isSome_iff_exists.mp hex
  have hu0' : List.find? (fun u => u.id == uid) db.users = some u0 := hu0
  have hred : delete_user db caller uid =
      (.deleted,
        { db with
          users := db.users.filter (fun u => u.id ≠ uid)
          jobs := db.jobs.map (fun j =>
            if j.employer_id = some uid then { j with employer_id := none }
            else j)
          apps := db.apps.map (fun a =>
            if a.job_seeker_id = some uid then
              { a with job_seeker_id := none }
            else a) }) := by
    simp only [delete_user, findUser, hu0', if_neg hnr]
  rw [hred]
  refine ⟨rfl, ?_, ?_, ?_, ?_, ?_, ?_, ?_, rfl⟩
  · intro u hu
    rw [List.mem_filter] at hu
    simpa using hu.2
  · intro j hj
    rw [List.mem_map] at hj
    obtain ⟨x, _, hx⟩ := hj
    by_cases he : x.employer_id = some uid
    · rw [if_pos he] at hx
      rw [← hx]
      simp
    · rw [if_neg he] at hx
      rw [← hx]
      exact he
  · intro a ha
    rw [List.mem_map] at ha
    obtain ⟨x, _, hx⟩ := ha
    by_cases he : x.job_seeker_id = some uid
    · rw [if_pos he] at hx
      rw [← hx]
      simp
    · rw [if_neg he] at hx
      rw [← hx]
      exact he
  · exact List.length_map db.jobs _
  · exact List.length_map db.apps _
  · rw [List.map_map]
    refine List.map_congr_left ?_
    intro j _
    by_cases he : j.employer_id = some uid <;> simp [he]
  · rw [List.map_map]
    refine List.map_congr_left ?_
    intro a _
    by_cases he : a.job_seeker_id = some uid <;> simp [he]

/-- Witness for the amended C2: deleting Bob keeps both jobs, with ids
intact and no remaining reference to him. -/
theorem C2_delete_user_detaches_witness :
    wAdmin.role = str "admin" ∧ (findUser wdbA 2).isSome = true ∧
    ((delete_user wdbA wAdmin 2).1 = .deleted ∧
     (∀ u ∈ (delete_user wdbA wAdmin 2).2.users, u.id ≠ 2) ∧
     (∀ j ∈ (delete_user wdbA wAdmin 2).2.jobs, j.employer_id ≠ some 2) ∧
     (∀ a ∈ (delete_user wdbA wAdmin 2).2.apps,
       a.job_seeker_id ≠ some 2) ∧
     (delete_user wdbA wAdmin 2).2.jobs.length = wdbA.jobs.length ∧
     (delete_user wdbA wAdmin 2).2.apps.length = wdbA.apps.length ∧
     (delete_user wdbA wAdmin 2).2.jobs.map (·.id) =
       wdbA.jobs.map (·.id) ∧
     (delete_user wdbA wAdmin 2).2.apps.map (·.id) =
       wdbA.apps.map (·.id) ∧
     (delete_user wdbA wAdmin 2).2.files = wdbA.files) :=
  ⟨by decide, by decide,
    C2_delete_user_detaches wdbA wAdmin 2 (by decide) (by decide)⟩

/-- C3 counterexample: admin deletion of job 10 removes the job row but
does not delete Alice's application that referenced it; the application
row survives with its `job_id` nulled. -/
theorem C3_counterexample :
    wApp1.job_id = some 10 ∧ wApp1 ∈ wdbA.apps ∧
    (delete_job wdbA wAdmin 10).1 = .deleted ∧
    findJob (delete_job wdbA wAdmin 10).2 10 = none ∧
    (delete_job wdbA wAdmin 10).2.apps =
      [{ wApp1 with job_id := none }] := by
  decide

/-- C3 (amended): `delete_job` is admin-only — every non-admin caller,
the owning employer included, gets Forbidden with the state unchanged; an
admin delete removes the Job row, but the Applications referencing it are
detached (their `job_id` nulled), not deleted: their rows and ids all
survive. -/
theorem C3_delete_job_admin_only (db : DB) (caller : User) (jid : Nat)
    (job : Job) :
    (caller.role ≠ str "admin" →
      delete_job db caller jid = (.forbidden, db)) ∧
    (caller.role = str "admin" → findJob db jid = some job →
      (delete_job db caller jid).1 = .deleted ∧
      findJob (delete_job db caller jid).2 jid = none ∧
      (∀ j, j ∈ (delete_job db caller jid).2.jobs ↔
        j ∈ db.jobs ∧ j.id ≠ jid) ∧
      (∀ a ∈ (delete_job db caller jid).2.apps, a.job_id ≠ some jid) ∧
      (delete_job db caller jid).2.apps.length = db.apps.length ∧
      (delete_job db caller jid).2.apps.map (·.id) = db.apps.map (·.id) ∧
      (delete_job db caller jid).2.users = db.users ∧
      (delete_job db caller jid).2.files = db.files) := by
  constructor
  · intro h
    simp [delete_job, h]
  · intro hrole hfind
    have hnr : ¬(caller.role ≠ str "admin") := by simp [hrole]
    have hfind' : List.find? (fun j => j.id == jid) db.jobs = some job :=
      hfind
    have hred : delete_job db caller jid =
        (.deleted,
          { db with
            jobs := db.jobs.filter (fun j => j.id ≠ jid)
            apps := db.apps.map (fun a =>
              if a.job_id = some jid then { a with job_id := none }
              else a) }) := by
      simp only [delete_job, findJob, hfind', if_neg hnr]
    rw [hred]
    refine ⟨rfl, ?_, ?_, ?_, ?_, ?_, rfl, rfl⟩
    · rw [findJob, List.find?_eq_none]
      intro j hj
      rw [List.mem_filter] at hj
      simp only [beq_iff_eq]
      simpa using hj.2
    · intro j
      rw [List.mem_filter]
      simp
    · intro a ha
      rw [List.mem_map] at ha
      obtain ⟨x, _, hx⟩ := ha
      by_cases he : x.job_id = some jid
      · rw [if_pos he] at hx
        rw [← hx]
        simp
      · rw [if_neg he] at hx
        rw [← hx]
        exact he
    · exact List.length_map db.apps _
    · rw [List.map_map]
      refine List.map_congr_left ?_
      intro a _
      by_cases he : a.job_id = some jid <;> simp [he]

/-- Witness for the amended C3: employer Bob cannot delete his own job;
the admin's delete removes the job and detaches the application. -/
theorem C3_delete_job_admin_only_witness :
    (wBob.role ≠ str "admin" ∧
      delete_job wdbA wBob 10 = (.forbidden, wdbA)) ∧
    (wAdmin.role = str "admin" ∧ findJob wdbA 10 = some wJob1 ∧
      ((delete_job wdbA wAdmin 10).1 = .deleted ∧
       findJob (delete_job wdbA wAdmin 10).2 10 = none ∧
       (∀ j, j ∈ (delete_job wdbA wAdmin 10).2.jobs ↔
         j ∈ wdbA.jobs ∧ j.id ≠ 10) ∧
       (∀ a ∈ (delete_job wdbA wAdmin 10).2.apps, a.job_id ≠ some 10) ∧
       (delete_job wdbA wAdmin 10).2.apps.length = wdbA.apps.length ∧
       (delete_job wdbA wAdmin 10).2.apps.map (·.id) =
         wdbA.apps.map (·.id) ∧
       (delete_job wdbA wAdmin 10).2.users = wdbA.users ∧
       (delete_job wdbA wAdmin 10).2.files = wdbA.files)) :=
  ⟨⟨by decide,
    (C3_delete_job_admin_only wdbA wBob 10 wJob1).1 (by decide)⟩,
   by decide, by decide,
   (C3_delete_job_admin_only wdbA wAdmin 10 wJob1).2 (by decide)
     (by decide)⟩

/-- C6 counterexample: searching with query "%" returns job 20 ("Chef",
"Cook meals", "Food Co") although "%" is not a case-insensitive substring
of its title, description or company: the query is spliced into a SQL
LIKE pattern, so its wildcards are interpreted, refuting the claimed
membership condition as stated. -/
theorem C6_counterexample :
    wJob2 ∈ jobs wdb (some (str "%")) none ∧
    ¬ SubCI (str "%") wJob2.title ∧
    ¬ SubCI (str "%") wJob2.description ∧
    ¬ SubCI (str "%") wJob2.company := by
  refine ⟨by decide, ?_, ?_, ?_⟩ <;>
    · rw [← subCIb_iff]
      decide

/-- C6 (amended): the search filters are SQL LIKE patterns wrapped in
`%…%`, so `%` and `_` inside a filter act as wildcards; for filter
strings free of those metacharacters the claim holds as stated: a job is
returned iff (for a non-empty query) the query is a case-insensitive
substring of its title, description or company AND (for a non-empty
location) the location filter is a case-insensitive substring of its
location; an empty filter imposes no constraint; results are ordered by
timestamp descending, and with no filters the search returns all jobs in
that order. -/
theorem C6_search_like_filters (db : DB) (q loc : Str)
    (hq : noWildcards q) (hl : noWildcards loc) :
    (∀ j, j ∈ jobs db (some q) (some loc) ↔
      (j ∈ db.jobs ∧
        (q = [] ∨ SubCI q j.title ∨ SubCI q j.description ∨
          SubCI q j.company) ∧
        (loc = [] ∨ SubCI loc j.location))) ∧
    sortedByTimestampDesc (jobs db (some q) (some loc)) ∧
    (jobs db none none).Perm db.jobs ∧
    sortedByTimestampDesc (jobs db none none) := by
  have hsort : ∀ query location : Option Str,
      sortedByTimestampDesc (jobs db query location) := by
    intro query location
    have h1 := sorted_orderByTimestampDesc db.jobs
    simp only [jobs]
    cases query with
    | none =>
      cases location with
      | none => exact h1
      | some l0 =>
        by_cases hl0 : l0 = []
        · simp only [if_pos hl0]
          exact h1
        · simp only [if_neg hl0]
          exact sortedByTimestampDesc_filter _ _ h1
    | some q0 =>
      by_cases hq0 : q0 = []
      · simp only [if_pos hq0]
        cases location with
        | none => exact h1
        | some l0 =>
          by_cases hl0 : l0 = []
          · simp only [if_pos hl0]
            exact h1
          · simp only [if_neg hl0]
            exact sortedByTimestampDesc_filter _ _ h1
      · simp only [if_neg hq0]
        cases location with
        | none => exact sortedByTimestampDesc_filter _ _ h1
        | some l0 =>
          by_cases hl0 : l0 = []
          · simp only [if_pos hl0]
            exact sortedByTimestampDesc_filter _ _ h1
          · simp only [if_neg hl0]
            exact sortedByTimestampDesc_filter _ _
              (sortedByTimestampDesc_filter _ _ h1)
  refine ⟨?_, hsort (some q) (some loc), ?_, hsort none none⟩
  · intro j
    by_cases hq0 : q = []
    · by_cases hl0 : loc = []
      · simp [jobs, hq0, hl0, mem_orderByTimestampDesc]
      · simp [jobs, hq0, hl0, List.mem_filter, mem_orderByTimestampDesc,
          ilike_iff_subCI loc hl]
    · by_cases hl0 : loc = []
      · simp [jobs, hq0, hl0, List.mem_filter, mem_orderByTimestampDesc,
          ilike_iff_subCI q hq]
        all_goals tauto
      · simp [jobs, hq0, hl0, List.mem_filter, mem_orderByTimestampDesc,
          ilike_iff_subCI q hq, ilike_iff_subCI loc hl, and_assoc]
        all_goals tauto
  · exact List.perm_insertionSort _ db.jobs

/-- Witness for the amended C6 with query "eng" and location "york"
against the fixture catalog. -/
theorem C6_search_like_filters_witness :
    noWildcards (str "eng") ∧ noWildcards (str "york") ∧
    ((∀ j, j ∈ jobs wdb (some (str "eng")) (some (str "york")) ↔
      (j ∈ wdb.jobs ∧
        (str "eng" = ([] : Str) ∨ SubCI (str "eng") j.title ∨
          SubCI (str "eng") j.description ∨ SubCI (str "eng") j.company) ∧
        (str "york" = ([] : Str) ∨ SubCI (str "york") j.location))) ∧
     sortedByTimestampDesc (jobs wdb (some (str "eng")) (some (str "york"))) ∧
     (jobs wdb none none).Perm wdb.jobs ∧
     sortedByTimestampDesc (jobs wdb none none)) :=
  ⟨by decide, by decide,
    C6_search_like_filters wdb (str "eng") (str "york") (by decide)
      (by decide)⟩

/-- C7: for a job seeker the dashboard is an exact two-way partition of
the catalog: `applied` holds exactly the jobs having one of the seeker's
applications, `others` exactly the rest, ordered by timestamp
descending. -/
theorem C7_dashboard_partition (db : DB) (caller : User)
    (applied others : List Job)
    (hrole : caller.role = str "job_seeker")
    (hnd : (db.jobs.map (·.id)).Nodup)
    (hdash : dashboard db caller = some (.seeker applied others)) :
    (∀ j ∈ applied, j ∈ db.jobs) ∧
    (∀ j ∈ db.jobs,
      ((j ∈ applied ↔ ∃ a ∈ db.apps,
          a.job_seeker_id = some caller.id ∧ a.job_id = some j.id) ∧
       (j ∈ others ↔ j ∉ applied))) ∧
    sortedByTimestampDesc others := by
  have hne : ¬(caller.role = str "employer" ∨
      caller.role = str "admin") := by
    rw [hrole]
    decide
  rw [dashboard, if_neg hne] at hdash
  cases hra : resolveAll (appJob db)
      (db.apps.filter fun a => a.job_seeker_id == some caller.id) with
  | none =>
    rw [hra] at hdash
    simp at hdash
  | some aj =>
    rw [hra] at hdash
    simp only [Option.some.injEq, DashView.seeker.injEq] at hdash
    obtain ⟨rfl, rfl⟩ := hdash
    have hmem := resolveAll_mem (appJob db) _ _ hra
    have happlied_sub : ∀ j ∈ aj, j ∈ db.jobs := by
      intro j hj
      obtain ⟨a, _, ha2⟩ := (hmem j).mp hj
      exact (appJob_eq_some db a j ha2).1
    refine ⟨happlied_sub, ?_,
      sortedByTimestampDesc_filter _ _ (sorted_orderByTimestampDesc db.jobs)⟩
    intro j hjdb
    constructor
    · constructor
      · intro hj
        obtain ⟨a, ha1, ha2⟩ := (hmem j).mp hj
        rw [List.mem_filter] at ha1
        obtain ⟨_, hjid⟩ := appJob_eq_some db a j ha2
        refine ⟨a, ha1.1, ?_, hjid⟩
        simpa using ha1.2
      · rintro ⟨a, hain, hsk, hjid⟩
        refine (hmem j).mpr ⟨a, ?_, appJob_complete db hnd a j hjdb hjid⟩
        rw [List.mem_filter]
        exact ⟨hain, by simp [hsk]⟩
    · rw [List.mem_filter]
      constructor
      · rintro ⟨_, hfilt⟩
        simp only [decide_eq_true_eq] at hfilt
        intro hjaj
        apply hfilt
        have hidmem : j.id ∈ aj.map (fun x => x.id) :=
          List.mem_map_of_mem _ hjaj
        simpa using hidmem
      · intro hnotin
        refine ⟨?_, ?_⟩
        · rw [mem_orderByTimestampDesc]
          exact hjdb
        · simp only [decide_eq_true_eq]
          intro hcont
          have hidmem : j.id ∈ aj.map (fun x => x.id) := by simpa using hcont
          rw [List.mem_map] at hidmem
          obtain ⟨b, hb, hbid⟩ := hidmem
          have hbj : b = j :=
            List.inj_on_of_nodup_map hnd (happlied_sub b hb) hjdb hbid
          exact hnotin (hbj ▸ hb)

/-- Witness for C7: Alice's dashboard over the fixture catalog splits
into applied = job 10 and others = job 20. -/
theorem C7_dashboard_partition_witness :
    wAlice.role = str "job_seeker" ∧
    (wdbA.jobs.map (·.id)).Nodup ∧
    dashboard wdbA wAlice = some (.seeker [wJob1] [wJob2]) ∧
    ((∀ j ∈ [wJob1], j ∈ wdbA.jobs) ∧
     (∀ j ∈ wdbA.jobs,
       ((j ∈ [wJob1] ↔ ∃ a ∈ wdbA.apps,
          a.job_seeker_id = some wAlice.id ∧ a.job_id = some j.id) ∧
        (j ∈ [wJob2] ↔ j ∉ [wJob1]))) ∧
     sortedByTimestampDesc [wJob2]) :=
  ⟨by decide, by decide, by decide,
    C7_dashboard_partition wdbA wAlice [wJob1] [wJob2] (by decide)
      (by decide) (by decide)⟩

end JobPortal
